import Mathlib

/-!
Verification of the quote-distribution subsystem of the practicum-rust
repository.  The definitions below are a shallow embedding of the Rust
sources (crates/quote-server, crates/quote-client, crates/quote-common):
pure functions become Lean functions, the per-client sender loop becomes an
explicit step function on its state, machine integers become `Nat`, and the
`f64` prices of the generator model are represented by rationals.  Socket
addresses are modelled in their IPv4 form (the form used throughout the
repository's tests, docs and defaults).
-/

namespace QuoteService

/-- White-space test matching the Unicode White_Space property used by
Rust's `char::is_whitespace` (and hence by `str::trim`). -/
def rustIsWs (c : Char) : Bool :=
  let n := c.toNat
  (0x09 ≤ n && n ≤ 0x0D) || n == 0x20 || n == 0x85 || n == 0xA0 || n == 0x1680 ||
  (0x2000 ≤ n && n ≤ 0x200A) || n == 0x2028 || n == 0x2029 || n == 0x202F ||
  n == 0x205F || n == 0x3000

/-- Drop leading white space (first half of `str::trim`). -/
def trimLeftChars (l : List Char) : List Char := l.dropWhile rustIsWs

/-- Drop trailing white space (second half of `str::trim`). -/
def trimRightChars (l : List Char) : List Char := (l.reverse.dropWhile rustIsWs).reverse

/-- Character-level model of Rust `str::trim`. -/
def trimChars (l : List Char) : List Char := trimRightChars (trimLeftChars l)

/-- Model of Rust `str::trim`. -/
def rustTrim (s : String) : String := ⟨trimChars s.data⟩

/-- Split a character list at the first occurrence of `sep`; `none` when
`sep` does not occur. -/
def splitFirst (sep : Char) : List Char → Option (List Char × List Char)
  | [] => none
  | c :: cs =>
    if c = sep then some ([], cs)
    else
      match splitFirst sep cs with
      | none => none
      | some (a, b) => some (c :: a, b)

/-- Model of Rust `str::splitn(n, sep)` for a character separator: at most
`n` pieces, the last piece keeping any further separators. -/
def splitn : Nat → Char → List Char → List (List Char)
  | 0, _, _ => []
  | 1, _, s => [s]
  | n + 2, sep, s =>
    match splitFirst sep s with
    | none => [s]
    | some (a, b) => a :: splitn (n + 1) sep b

/-- Accumulator-style worker for `splitOnChar`. -/
def splitOnAux (sep : Char) : List Char → List Char → List (List Char)
  | [], acc => [acc.reverse]
  | c :: cs, acc =>
    if c = sep then acc.reverse :: splitOnAux sep cs []
    else splitOnAux sep cs (c :: acc)

/-- Model of Rust `str::split(sep)` for a character separator (always at
least one piece; empty pieces preserved). -/
def splitOnChar (sep : Char) (s : List Char) : List (List Char) := splitOnAux sep s []

/-- Model of Rust `str::strip_prefix`: `some rest` when `pre` is a prefix. -/
def stripPrefixChars : List Char → List Char → Option (List Char)
  | [], s => some s
  | _ :: _, [] => none
  | p :: ps, c :: cs => if p = c then stripPrefixChars ps cs else none

/-- Model of Rust `str::to_uppercase` on the ASCII fragment the protocol
uses (ticker symbols). -/
def upperStr (s : String) : String := ⟨s.data.map Char.toUpper⟩

/-- Numeric value of an ASCII digit, as in `char::to_digit(10)`. -/
def digitVal (c : Char) : Nat := c.toNat - 48

/-- Core of Rust `core::net::parser::Parser::read_number` at radix 10: consume a
maximal run of ASCII digits, accumulating with checked arithmetic bounded by
the integer type's maximum (`bound`), failing when the accumulator would
overflow or when more than `maxDigits` digits appear.  Returns the value, the
number of digits consumed and the remaining input. -/
def readDigits (bound : Nat) (maxDigits : Option Nat) :
    List Char → Nat → Nat → Option (Nat × Nat × List Char)
  | [], acc, cnt => some (acc, cnt, [])
  | c :: cs, acc, cnt =>
    if c.isDigit then
      let acc' := acc * 10 + digitVal c
      if bound < acc' then none
      else
        match maxDigits with
        | some m => if m < cnt + 1 then none else readDigits bound maxDigits cs acc' (cnt + 1)
        | none => readDigits bound maxDigits cs acc' (cnt + 1)
    else some (acc, cnt, c :: cs)

/-- Model of `Parser::read_number` (radix 10): at least one digit, and a
leading zero is rejected for multi-digit numerals unless `allowZeroPrefix`. -/
def readNumber (bound : Nat) (maxDigits : Option Nat) (allowZeroPrefix : Bool)
    (s : List Char) : Option (Nat × List Char) :=
  let hasLeadingZero : Bool := s.head? == some '0'
  match readDigits bound maxDigits s 0 0 with
  | none => none
  | some (v, cnt, rest) =>
    if cnt = 0 then none
    else if !allowZeroPrefix && hasLeadingZero && decide (1 < cnt) then none
    else some (v, rest)

/-- Model of `Parser::read_given_char`. -/
def readGivenChar (c : Char) : List Char → Option (List Char)
  | [] => none
  | x :: xs => if x = c then some xs else none

/-- One IPv4 octet: up to three digits, value at most 255, no leading zero. -/
def readOctet (s : List Char) : Option (Nat × List Char) := readNumber 255 (some 3) false s

/-- Model of `Parser::read_ipv4_addr`: four dot-separated octets. -/
def readIpv4 (s : List Char) : Option ((Nat × Nat × Nat × Nat) × List Char) :=
  match readOctet s with
  | none => none
  | some (a, s1) =>
    match readGivenChar '.' s1 with
    | none => none
    | some s2 =>
      match readOctet s2 with
      | none => none
      | some (b, s3) =>
        match readGivenChar '.' s3 with
        | none => none
        | some s4 =>
          match readOctet s4 with
          | none => none
          | some (c, s5) =>
            match readGivenChar '.' s5 with
            | none => none
            | some s6 =>
              match readOctet s6 with
              | none => none
              | some (d, s7) => some ((a, b, c, d), s7)

/-- Model of `Parser::read_port`: a colon followed by a `u16` numeral (leading
zeros allowed). -/
def readPort (s : List Char) : Option (Nat × List Char) :=
  match readGivenChar ':' s with
  | none => none
  | some s1 => readNumber 65535 none true s1

/-- An IPv4 socket address.  The embedding restricts `std::net::SocketAddr` to
its IPv4 form, the one used throughout the repository. -/
structure SockAddrV4 where
  ipa : Nat
  ipb : Nat
  ipc : Nat
  ipd : Nat
  port : Nat
  deriving DecidableEq

/-- Model of `SocketAddr::from_str` on the IPv4 form: the address, a port, and
nothing else. -/
def parseSocketAddr (s : String) : Option SockAddrV4 :=
  match readIpv4 s.data with
  | none => none
  | some ((a, b, c, d), rest) =>
    match readPort rest with
    | none => none
    | some (p, rest2) => if rest2 = [] then some ⟨a, b, c, d, p⟩ else none

/-- Decimal digits of `n`, least significant first, with explicit fuel to keep
the recursion structural. -/
def natDigitsRevAux (fuel : Nat) (n : Nat) : List Nat :=
  match fuel with
  | 0 => []
  | f + 1 => if n = 0 then [] else n % 10 :: natDigitsRevAux f (n / 10)

/-- Decimal digits of `n`, least significant first (`[]` for `0`). -/
def natDigitsRev (n : Nat) : List Nat := natDigitsRevAux n n

/-- The ASCII character of a decimal digit. -/
def decChar : Nat → Char
  | 0 => '0' | 1 => '1' | 2 => '2' | 3 => '3' | 4 => '4'
  | 5 => '5' | 6 => '6' | 7 => '7' | 8 => '8' | _ => '9'

/-- Decimal numeral of `n`, most significant digit first, as Rust's `Display`
for unsigned integers prints it (no leading zeros, `"0"` for zero). -/
def natToChars (n : Nat) : List Char :=
  if n = 0 then ['0'] else ((natDigitsRev n).reverse).map decChar

/-- Model of `Display` for `SocketAddrV4`: `a.b.c.d:port`. -/
def showAddr (x : SockAddrV4) : String :=
  ⟨natToChars x.ipa ++ '.' :: natToChars x.ipb ++ '.' :: natToChars x.ipc ++
    '.' :: natToChars x.ipd ++ ':' :: natToChars x.port⟩

/-- The errors of `quote_common::ProtocolError` reachable from the handshake
parser (the IO variant is never constructed by `parse_command`). -/
inductive ProtocolError where
  | invalidCommand (msg : String)
  | unknownTicker (t : String)
  | invalidAddress (a : String)
  deriving DecidableEq

/-- The `thiserror`-derived `Display` of `ProtocolError`. -/
def ProtocolError.display : ProtocolError → String
  | .invalidCommand m => "invalid command format: " ++ m
  | .unknownTicker t => "unknown ticker: " ++ t
  | .invalidAddress a => "invalid UDP address: " ++ a

/-- The parsed STREAM command (`quote_server::protocol::StreamCommand`). -/
structure StreamCommand where
  udpAddr : SockAddrV4
  tickers : List String
  deriving DecidableEq

/-- Protocol constant `CMD_STREAM`. -/
def CMD_STREAM : String := "STREAM"

/-- Protocol constant `PING_PAYLOAD` (the bytes of `b"PING"`). -/
def PING_PAYLOAD : List Nat := [80, 73, 78, 71]

/-- Protocol constant `PING_TIMEOUT_SECS`. -/
def PING_TIMEOUT_SECS : Nat := 5

/-- Queue capacity used by `ClientRegistry::subscribe` (`bounded(64)`). -/
def QUEUE_CAP : Nat := 64

/-- The message built for a command of the wrong shape in `parse_command`. -/
def invalidCommandMsg (line : String) : String :=
  "expected 'STREAM udp://HOST:PORT TICKER,...', got: " ++ line

/-- Per-token cleaning applied to each comma-separated ticker token:
`t.trim().to_uppercase()`. -/
def cleanTicker (t : List Char) : String := upperStr (rustTrim ⟨t⟩)

/-- The dedup-preserving filter of `parse_command`: empty tokens are dropped
and only the first occurrence of each ticker is kept (`seen.insert`). -/
def dedupTickers (seen : List String) : List String → List String
  | [] => []
  | t :: ts =>
    if t = "" then dedupTickers seen ts
    else if t ∈ seen then dedupTickers seen ts
    else t :: dedupTickers (t :: seen) ts

/-- Body of `parse_command` after the initial `line.trim()`. -/
def parseTrimmed (line : String) (known : List String) :
    Except ProtocolError StreamCommand :=
  match splitn 3 ' ' line.data with
  | [p0, p1, p2] =>
    if (⟨p0⟩ : String) = CMD_STREAM then
      match stripPrefixChars "udp://".data p1 with
      | none => .error (.invalidAddress ⟨p1⟩)
      | some addrChars =>
        match parseSocketAddr ⟨addrChars⟩ with
        | none => .error (.invalidAddress ⟨addrChars⟩)
        | some udpAddr =>
          let tickers := dedupTickers [] ((splitOnChar ',' p2).map cleanTicker)
          if tickers = [] then .error (.invalidCommand "no tickers specified")
          else
            match tickers.find? (fun t => decide (t ∉ known)) with
            | some t => .error (.unknownTicker t)
            | none => .ok ⟨udpAddr, tickers⟩
    else .error (.invalidCommand (invalidCommandMsg line))
  | _ => .error (.invalidCommand (invalidCommandMsg line))

/-- Model of `quote_server::protocol::parse_command`: trim the request line,
then parse it.  The known-ticker `HashSet` is modelled by a list through its
membership predicate. -/
def parse_command (input : String) (known : List String) :
    Except ProtocolError StreamCommand :=
  parseTrimmed (rustTrim input) known

/-- The cleaned comma-separated tokens of the third field of the request, in
input order (before dedup); used to state order preservation. -/
def tickerTokens (input : String) : List String :=
  match splitn 3 ' ' (rustTrim input).data with
  | [_, _, p2] => (splitOnChar ',' p2).map cleanTicker
  | _ => []

/-- The single response line the server writes for a handshake, from
`run()` in quote-server's main: `OK <udp_local_addr>\n` on success and
`ERR <display of the error>\n` on rejection. -/
def serverResponse (input : String) (known : List String) (udpLocal : SockAddrV4) :
    String :=
  match parse_command input known with
  | .ok _ => "OK " ++ showAddr udpLocal ++ "\n"
  | .error e => "ERR " ++ e.display ++ "\n"

/-- Model of `slice::join(",")` on strings. -/
def joinComma : List String → String
  | [] => ""
  | [t] => t
  | t :: u :: ts => t ++ "," ++ joinComma (u :: ts)

/-- The request line the client writes in `handshake`:
`STREAM udp://<addr> <csv-tickers>\n`. -/
def serializeCommand (cmd : StreamCommand) : String :=
  "STREAM udp://" ++ showAddr cmd.udpAddr ++ " " ++ joinComma cmd.tickers ++ "\n"

/-- Outcome of the client-side classification of the handshake response line
(`quote_client::connection::handshake` after `read_line`). -/
inductive HandshakeOutcome where
  | accepted (serverUdp : SockAddrV4)
  | addrParseFailed (t : String)
  | rejected (msg : String)
  | unexpected (line : String)
  deriving DecidableEq

/-- Model of the response classification in `handshake`: trim the line, try to
drop the literal `OK` (no trailing space), parse the trimmed remainder as the
server UDP address; otherwise try to drop the literal `ERR` and fail with the
trimmed remainder; otherwise fail as unexpected. -/
def classifyResponse (resp : String) : HandshakeOutcome :=
  let r := rustTrim resp
  match stripPrefixChars "OK".data r.data with
  | some rest =>
    let a := rustTrim ⟨rest⟩
    match parseSocketAddr a with
    | some sa => .accepted sa
    | none => .addrParseFailed a
  | none =>
    match stripPrefixChars "ERR".data r.data with
    | some m => .rejected (rustTrim ⟨m⟩)
    | none => .unexpected r

/-- A stock quote (`quote_common::StockQuote`).  The `f64` price is modelled
by a rational, the `u64` volume and millisecond timestamp by naturals. -/
structure StockQuote where
  ticker : String
  price : ℚ
  volume : Nat
  timestamp : Nat
  deriving DecidableEq

/-- One bounded per-client channel of the registry, observed jointly from its
producer and consumer halves: the buffered batches and whether the consumer
side is gone. -/
structure BQueue where
  buf : List (List StockQuote)
  closed : Bool
  deriving DecidableEq

/-- Model of crossbeam's `try_send` on a `bounded(64)` channel: fails when the
consumer is gone or the buffer is full, otherwise enqueues. -/
def trySend (q : BQueue) (b : List StockQuote) : Option BQueue :=
  if q.closed then none
  else if q.buf.length < QUEUE_CAP then some { q with buf := q.buf ++ [b] }
  else none

/-- Model of `ClientRegistry::broadcast`: `senders.retain(|tx|
tx.try_send(batch).is_ok())` — the registry keeps exactly the senders whose
`try_send` succeeded, with the batch enqueued on each of those. -/
def broadcast (senders : List BQueue) (b : List StockQuote) : List BQueue :=
  senders.filterMap (fun q => trySend q b)

/-- Insertion into the generator's ticker-to-price `HashMap`: replace the
price when the key is present, append the binding otherwise. -/
def insertPrice (m : List (String × ℚ)) (t : String) (p : ℚ) : List (String × ℚ) :=
  if m.any (fun e => e.1 = t) then m.map (fun e => if e.1 = t then (t, p) else e)
  else m ++ [(t, p)]

/-- Model of `QuoteGenerator::new`: one initial price per ticker, drawn from
the RNG; the RNG draws are supplied by the oracle `init`, indexed by draw
order.  Collecting into a `HashMap` is sequential insertion. -/
def newGen (init : Nat → ℚ) (tickers : List String) : List (String × ℚ) :=
  (tickers.enum).foldl (fun m e => insertPrice m e.2 (init e.1)) []

/-- First pass of `generate_all`: every stored price is multiplied by the
next random factor and clamped from below at `0.01`. -/
def stepPrices (fRand : Nat → ℚ) : Nat → List (String × ℚ) → List (String × ℚ)
  | _, [] => []
  | i, e :: rest => (e.1, max (e.2 * fRand i) (1 / 100)) :: stepPrices fRand (i + 1) rest

/-- Second pass of `generate_all`: one quote per stored price, with the next
random volume and the shared batch timestamp. -/
def mkQuotes (vRand : Nat → Nat) (ts : Nat) : Nat → List (String × ℚ) → List StockQuote
  | _, [] => []
  | i, e :: rest => ⟨e.1, e.2, vRand i, ts⟩ :: mkQuotes vRand ts (i + 1) rest

/-- Model of `QuoteGenerator::generate_all`: the RNG is an oracle pair
(`fRand` for the walk factors, `vRand` for the volumes, both indexed by draw
order within the call) and the wall clock is the parameter `ts`.  Returns the
new price state and the batch. -/
def generateAll (fRand : Nat → ℚ) (vRand : Nat → Nat) (ts : Nat)
    (prices : List (String × ℚ)) : List (String × ℚ) × List StockQuote :=
  let prices2 := stepPrices fRand 0 prices
  (prices2, mkQuotes vRand ts 0 prices2)

/-- Result of `rx.recv_timeout(tick)` in one iteration of the sender loop. -/
inductive RecvResult where
  | batch (qs : List StockQuote)
  | timeout
  | disconnected
  deriving DecidableEq

/-- Result of the non-blocking `socket.recv_from` in one iteration: a
datagram with its source address and payload bytes, no data, or a read
error. -/
inductive UdpRead where
  | datagram (peer : SockAddrV4) (payload : List Nat)
  | wouldBlock
  | readErr
  deriving DecidableEq

/-- Why the sender loop returned. -/
inductive ExitReason where
  | channelClosed
  | pingTimeout
  deriving DecidableEq

/-- Result of one iteration of `run_client_sender`'s loop: either the loop
returns, or it continues with the (possibly updated) `last_ping`; both carry
the quotes whose datagrams were sent during the iteration. -/
inductive StepOutcome where
  | stopped (r : ExitReason) (sent : List StockQuote)
  | running (lastPing : Nat) (sent : List StockQuote)
  deriving DecidableEq

/-- The quotes of a batch that produce a datagram: kept by the ticker filter
and successfully serialized (`serOk`, indexed by position in the filtered
sequence, models the `serde_json::to_vec` result; on failure the quote is
only logged and the iteration moves on). -/
def sentQuotes (tickers : List String) (serOk : Nat → Bool) (qs : List StockQuote) :
    List StockQuote :=
  ((qs.filter (fun q => decide (q.ticker ∈ tickers))).enum).filterMap
    (fun e => if serOk e.1 then some e.2 else none)

/-- The heartbeat test of the loop: the datagram's source equals the client's
address, the received byte count (at most the 64-byte buffer) equals the
4-byte `PING` payload length, and the bytes equal the payload. -/
def isPing (clientAddr : SockAddrV4) : UdpRead → Bool
  | .datagram peer payload =>
    peer == clientAddr && (payload.take 64).length == PING_PAYLOAD.length &&
      (payload.take 64) == PING_PAYLOAD
  | _ => false

/-- One iteration of the loop of `run_client_sender`.  Times are monotonic
milliseconds; `now` is the iteration's clock reading.  The send results of
`socket.send_to` (`sendOk`) are only logged by the source, so they do not
influence the outcome.  The loop first services the queue (returning at once
when it is disconnected), then the heartbeat socket (errors and foreign
datagrams are only logged), then returns when the truncated-seconds age of
`last_ping` exceeds the 5 s timeout. -/
def senderStep (clientAddr : SockAddrV4) (tickers : List String)
    (serOk : Nat → Bool) (sendOk : Nat → Bool) (now : Nat)
    (rx : RecvResult) (udp : UdpRead) (lastPing : Nat) : StepOutcome :=
  match rx with
  | .disconnected => .stopped .channelClosed []
  | _ =>
    let sent := match rx with
      | .batch qs => sentQuotes tickers serOk qs
      | _ => []
    let lp := if isPing clientAddr udp then now else lastPing
    if PING_TIMEOUT_SECS < (now - lp) / 1000 then .stopped .pingTimeout sent
    else .running lp sent

/-! ### Properties of trimming -/

lemma dropWhile_head_false {α : Type} {p : α → Bool} {l : List α} {a : α} {as : List α}
    (h : l.dropWhile p = a :: as) : p a = false := by
  have hx := List.head?_dropWhile_not p l
  rw [h] at hx
  simpa using hx

lemma dropWhile_self {α : Type} (p : α → Bool) (l : List α) :
    (l.dropWhile p).dropWhile p = l.dropWhile p := by
  cases h : l.dropWhile p with
  | nil => simp
  | cons a as => simp [List.dropWhile_cons, dropWhile_head_false h]

lemma getLast?_of_suffix {α : Type} {l₁ l₂ : List α} (h : l₁ <:+ l₂) (hne : l₁ ≠ []) :
    l₂.getLast? = l₁.getLast? := by
  obtain ⟨t, rfl⟩ := h
  rw [List.getLast?_append]
  cases hl : l₁.getLast? with
  | none => exact absurd (List.getLast?_eq_none_iff.mp hl) hne
  | some a => rfl

lemma trimLeft_trimRight {A : List Char} (hA : trimLeftChars A = A) :
    trimLeftChars (trimRightChars A) = trimRightChars A := by
  cases h : trimRightChars A with
  | nil => simp [trimLeftChars, h]
  | cons c cs =>
    have hd : A.reverse.dropWhile rustIsWs = cs.reverse ++ [c] := by
      have : (trimRightChars A).reverse = (c :: cs).reverse := by rw [h]
      simpa [trimRightChars] using this
    have hsuf : A.reverse.dropWhile rustIsWs <:+ A.reverse := List.dropWhile_suffix _
    have hlast : A.reverse.getLast? = some c := by
      rw [getLast?_of_suffix hsuf (by simp [hd]), hd, List.getLast?_concat]
    have hhead : A.head? = some c := by
      rw [← List.getLast?_reverse]; exact hlast
    have hws : rustIsWs c = false := by
      cases A with
      | nil => simp at hhead
      | cons a as =>
        obtain rfl : a = c := by simpa using hhead
        exact dropWhile_head_false hA
    simp [trimLeftChars, List.dropWhile_cons, hws]

lemma trimRight_trimRight (l : List Char) :
    trimRightChars (trimRightChars l) = trimRightChars l := by
  unfold trimRightChars
  rw [List.reverse_reverse, dropWhile_self]

lemma trimChars_trimChars (l : List Char) : trimChars (trimChars l) = trimChars l := by
  unfold trimChars
  have hA : trimLeftChars (trimLeftChars l) = trimLeftChars l := dropWhile_self rustIsWs l
  rw [trimLeft_trimRight hA, trimRight_trimRight]

lemma rustTrim_rustTrim (s : String) : rustTrim (rustTrim s) = rustTrim s :=
  congrArg String.mk (trimChars_trimChars s.data)

lemma trimRight_append_ws {c : Char} (hc : rustIsWs c = true) (l : List Char) :
    trimRightChars (l ++ [c]) = trimRightChars l := by
  unfold trimRightChars
  simp [List.reverse_append, List.dropWhile_cons, hc]

lemma trimChars_append_newline (l : List Char) :
    trimChars (l ++ ['\n']) = trimChars l := by
  unfold trimChars trimLeftChars
  rw [List.dropWhile_append]
  by_cases h : (l.dropWhile rustIsWs).isEmpty
  · have h2 : l.dropWhile rustIsWs = [] := by simpa using h
    simp [h, h2, List.dropWhile_cons, (by decide : rustIsWs '\n' = true), trimRightChars]
  · simp only [h, if_false]
    exact trimRight_append_ws (by decide) _

lemma rustTrim_append_newline (s : String) : rustTrim (s ++ "\n") = rustTrim s := by
  unfold rustTrim
  rw [String.data_append]
  exact congrArg String.mk (trimChars_append_newline s.data)

/-- C10: `parse_command` is insensitive to leading and trailing white space on
the request line — parsing a line equals parsing its trimmed form — and, in
particular, a command line without the terminating newline parses exactly as
one with it. -/
theorem c10_parse_command_trim_insensitive :
    (∀ (l : String) (K : List String), parse_command l K = parse_command (rustTrim l) K) ∧
    (∀ (s : String) (K : List String), parse_command (s ++ "\n") K = parse_command s K) := by
  constructor
  · intro l K
    unfold parse_command
    rw [rustTrim_rustTrim]
  · intro s K
    unfold parse_command
    rw [rustTrim_append_newline]

/-! ### C1 — broadcast and eviction -/

/-- A live subscriber whose bounded queue is saturated with 64 batches. -/
def fullLiveQueue : BQueue := ⟨List.replicate 64 [], false⟩

/-- C1 counterexample: on a broadcast to a registry holding one subscriber
whose queue is full (64 batches buffered) while its consumer is alive, the
subscriber's producer handle does not remain in the registry — the registry
is empty after the single `broadcast` call, refuting eviction-only-on-closed
(or only after repeated failures). -/
theorem c1_counterexample :
    fullLiveQueue.closed = false ∧ fullLiveQueue.buf.length = QUEUE_CAP ∧
    broadcast [fullLiveQueue] [] = [] :=
  ⟨rfl, by decide, by decide⟩

/-- C1 (amended): `broadcast` keeps exactly the subscribers whose `try_send`
succeeds — consumer alive and queue below capacity — enqueuing the batch on
each of those; a subscriber whose queue is full or closed is evicted in the
same pass (on its first `try_send` failure), even when its consumer is
alive. -/
theorem c1_amended_broadcast_keeps_exactly_successes
    (senders : List BQueue) (b : List StockQuote) :
    broadcast senders b =
      (senders.filter (fun q => !q.closed && decide (q.buf.length < QUEUE_CAP))).map
        (fun q => { q with buf := q.buf ++ [b] }) := by
  induction senders with
  | nil => rfl
  | cons q qs ih =>
    by_cases hc : q.closed <;> by_cases hl : q.buf.length < QUEUE_CAP <;>
      simp [broadcast, trySend, List.filterMap_cons, hc, hl] <;>
      simpa [broadcast] using ih

/-! ### C2 — invariants of a parsed StreamCommand -/

lemma toNat_ofNat_of_lt {m : Nat} (h : m < 55296) : (Char.ofNat m).toNat = m := by
  have hv : Nat.isValidChar m := Or.inl h
  simp only [Char.ofNat, dif_pos hv]
  simp [Char.ofNatAux, Char.toNat, UInt32.toNat, BitVec.toNat_ofNatLt]

lemma toUpper_toUpper (c : Char) : c.toUpper.toUpper = c.toUpper := by
  unfold Char.toUpper
  by_cases h : c.toNat ≥ 97 ∧ c.toNat ≤ 122
  · have h2 : (Char.ofNat (c.toNat - 32)).toNat = c.toNat - 32 :=
      toNat_ofNat_of_lt (by omega)
    simp only [h, and_true, if_true, if_pos]
    rw [if_neg (by omega)]
  · simp [h]

lemma upperStr_upperStr (s : String) : upperStr (upperStr s) = upperStr s := by
  unfold upperStr
  apply congrArg String.mk
  show (s.data.map Char.toUpper).map Char.toUpper = s.data.map Char.toUpper
  rw [List.map_map]
  exact List.map_congr_left (fun c _ => toUpper_toUpper c)

lemma upperStr_cleanTicker (t : List Char) : upperStr (cleanTicker t) = cleanTicker t :=
  upperStr_upperStr _

lemma mem_dedupTickers {t : String} :
    ∀ {l seen : List String}, t ∈ dedupTickers seen l ↔ (t ∈ l ∧ t ≠ "" ∧ t ∉ seen)
  | [], seen => by simp [dedupTickers]
  | u :: us, seen => by
    unfold dedupTickers
    by_cases hu : u = ""
    · subst hu
      rw [if_pos rfl, mem_dedupTickers]
      constructor
      · rintro ⟨h1, h2, h3⟩; exact ⟨List.mem_cons_of_mem _ h1, h2, h3⟩
      · rintro ⟨h1, h2, h3⟩
        rcases List.mem_cons.mp h1 with rfl | h1
        · exact absurd rfl h2
        · exact ⟨h1, h2, h3⟩
    · rw [if_neg hu]
      by_cases hs : u ∈ seen
      · rw [if_pos hs, mem_dedupTickers]
        constructor
        · rintro ⟨h1, h2, h3⟩; exact ⟨List.mem_cons_of_mem _ h1, h2, h3⟩
        · rintro ⟨h1, h2, h3⟩
          rcases List.mem_cons.mp h1 with rfl | h1
          · exact absurd hs h3
          · exact ⟨h1, h2, h3⟩
      · rw [if_neg hs]
        constructor
        · intro hmem
          rcases List.mem_cons.mp hmem with rfl | hmem
          · exact ⟨List.mem_cons_self _ _, hu, hs⟩
          · obtain ⟨h1, h2, h3⟩ := mem_dedupTickers.mp hmem
            exact ⟨List.mem_cons_of_mem _ h1, h2, fun hk => h3 (List.mem_cons_of_mem _ hk)⟩
        · rintro ⟨h1, h2, h3⟩
          rcases List.mem_cons.mp h1 with rfl | h1
          · exact List.mem_cons_self _ _
          · by_cases ht : t = u
            · subst ht; exact List.mem_cons_self _ _
            · exact List.mem_cons_of_mem _ (mem_dedupTickers.mpr
                ⟨h1, h2, by simp [List.mem_cons, ht, h3]⟩)

lemma dedupTickers_sublist (seen l : List String) : (dedupTickers seen l).Sublist l := by
  induction l generalizing seen with
  | nil => simp [dedupTickers]
  | cons u us ih =>
    unfold dedupTickers
    by_cases hu : u = ""
    · simpa [hu] using (ih seen).cons u
    · rw [if_neg hu]
      by_cases hs : u ∈ seen
      · simpa [hs] using (ih seen).cons u
      · simpa [hs] using (ih (u :: seen)).cons₂ u

lemma dedupTickers_nodup (seen l : List String) : (dedupTickers seen l).Nodup := by
  induction l generalizing seen with
  | nil => simp [dedupTickers]
  | cons u us ih =>
    unfold dedupTickers
    by_cases hu : u = ""
    · simpa [hu] using ih seen
    · rw [if_neg hu]
      by_cases hs : u ∈ seen
      · simpa [hs] using ih seen
      · rw [if_neg hs]
        refine List.nodup_cons.mpr ⟨fun hmem => ?_, ih (u :: seen)⟩
        exact (mem_dedupTickers.mp hmem).2.2 (List.mem_cons_self _ _)

/-- C2: whenever `parse_command` succeeds, the resulting ticker list is
non-empty, duplicate-free, free of empty tokens, upper-case, fully contained
in the known set, and an order-preserving subsequence of the cleaned input
tokens which keeps every non-empty token (first occurrence); a line failing
any of these validations never produces a `StreamCommand`. -/
theorem c2_parse_ok_invariants (input : String) (K : List String) (cmd : StreamCommand)
    (h : parse_command input K = .ok cmd) :
    cmd.tickers ≠ [] ∧ cmd.tickers.Nodup ∧
      (∀ t ∈ cmd.tickers, t ≠ "" ∧ upperStr t = t ∧ t ∈ K) ∧
      cmd.tickers.Sublist (tickerTokens input) ∧
      (∀ t ∈ tickerTokens input, t ≠ "" → t ∈ cmd.tickers) := by
  unfold parse_command parseTrimmed at h
  unfold tickerTokens
  cases hsp : splitn 3 ' ' (rustTrim input).data with
  | nil => rw [hsp] at h; exact Except.noConfusion h
  | cons p0 rest =>
    cases rest with
    | nil => rw [hsp] at h; exact Except.noConfusion h
    | cons p1 rest2 =>
      cases rest2 with
      | nil => rw [hsp] at h; exact Except.noConfusion h
      | cons p2 rest3 =>
        cases rest3 with
        | cons _ _ => rw [hsp] at h; exact Except.noConfusion h
        | nil =>
          rw [hsp] at h
          simp only at h ⊢
          by_cases hcmd : (⟨p0⟩ : String) = CMD_STREAM
          · rw [if_pos hcmd] at h
            cases hstrip : stripPrefixChars "udp://".data p1 with
            | none => rw [hstrip] at h; exact Except.noConfusion h
            | some addrChars =>
              rw [hstrip] at h
              simp only at h
              cases haddr : parseSocketAddr ⟨addrChars⟩ with
              | none => rw [haddr] at h; exact Except.noConfusion h
              | some udpAddr =>
                rw [haddr] at h
                simp only at h
                by_cases hemp : dedupTickers [] ((splitOnChar ',' p2).map cleanTicker) = []
                · rw [if_pos hemp] at h; exact Except.noConfusion h
                · rw [if_neg hemp] at h
                  cases hfind : (dedupTickers [] ((splitOnChar ',' p2).map cleanTicker)).find?
                      (fun t => decide (t ∉ K)) with
                  | some t => rw [hfind] at h; exact Except.noConfusion h
                  | none =>
                    rw [hfind] at h
                    have hc : cmd = ⟨udpAddr, dedupTickers []
                        ((splitOnChar ',' p2).map cleanTicker)⟩ := by
                      cases h; rfl
                    subst hc
                    refine ⟨hemp, dedupTickers_nodup _ _, ?_, ?_, ?_⟩
                    · intro t ht
                      obtain ⟨hmem, hne, -⟩ := mem_dedupTickers.mp ht
                      obtain ⟨raw, -, rfl⟩ := List.mem_map.mp hmem
                      refine ⟨hne, upperStr_cleanTicker raw, ?_⟩
                      have := List.find?_eq_none.mp hfind _ ht
                      simpa using this
                    · exact dedupTickers_sublist _ _
                    · intro t ht hne
                      exact mem_dedupTickers.mpr ⟨ht, hne, by simp⟩
          · rw [if_neg hcmd] at h; exact Except.noConfusion h

/-- C2 witness: the invariants instantiated on a concrete accepted request. -/
theorem c2_witness :
    parse_command "STREAM udp://127.0.0.1:5000 aapl,tsla,aapl" ["AAPL", "TSLA"]
        = .ok ⟨⟨127, 0, 0, 1, 5000⟩, ["AAPL", "TSLA"]⟩ ∧
      (["AAPL", "TSLA"] : List String) ≠ [] ∧ (["AAPL", "TSLA"] : List String).Nodup ∧
      (∀ t ∈ (["AAPL", "TSLA"] : List String), t ≠ "" ∧ upperStr t = t ∧
        t ∈ (["AAPL", "TSLA"] : List String)) ∧
      (["AAPL", "TSLA"] : List String).Sublist
        (tickerTokens "STREAM udp://127.0.0.1:5000 aapl,tsla,aapl") ∧
      (∀ t ∈ tickerTokens "STREAM udp://127.0.0.1:5000 aapl,tsla,aapl", t ≠ "" →
        t ∈ (["AAPL", "TSLA"] : List String)) := by
  refine ⟨rfl, ?_⟩
  exact c2_parse_ok_invariants "STREAM udp://127.0.0.1:5000 aapl,tsla,aapl"
    ["AAPL", "TSLA"] ⟨⟨127, 0, 0, 1, 5000⟩, ["AAPL", "TSLA"]⟩ rfl

/-! ### C3 — one tick of the generator -/

lemma stepPrices_getElem? (fRand : Nat → ℚ) :
    ∀ (l : List (String × ℚ)) (k i : Nat),
      (stepPrices fRand k l)[i]? =
        l[i]?.map (fun e => (e.1, max (e.2 * fRand (k + i)) (1 / 100)))
  | [], _, _ => by simp [stepPrices]
  | e :: rest, k, 0 => by simp [stepPrices]
  | e :: rest, k, i + 1 => by
    have := stepPrices_getElem? fRand rest (k + 1) i
    simpa [stepPrices, Nat.add_assoc, Nat.add_comm 1 i] using this

lemma mkQuotes_getElem? (vRand : Nat → Nat) (ts : Nat) :
    ∀ (l : List (String × ℚ)) (k i : Nat),
      (mkQuotes vRand ts k l)[i]? =
        l[i]?.map (fun e => ⟨e.1, e.2, vRand (k + i), ts⟩)
  | [], _, _ => by simp [mkQuotes]
  | e :: rest, k, 0 => by simp [mkQuotes]
  | e :: rest, k, i + 1 => by
    have := mkQuotes_getElem? vRand ts rest (k + 1) i
    simpa [mkQuotes, Nat.add_assoc, Nat.add_comm 1 i] using this

lemma stepPrices_length (fRand : Nat → ℚ) :
    ∀ (l : List (String × ℚ)) (k : Nat), (stepPrices fRand k l).length = l.length
  | [], _ => rfl
  | e :: rest, k => by simp [stepPrices, stepPrices_length fRand rest (k + 1)]

lemma mkQuotes_length (vRand : Nat → Nat) (ts : Nat) :
    ∀ (l : List (String × ℚ)) (k : Nat), (mkQuotes vRand ts k l).length = l.length
  | [], _ => rfl
  | e :: rest, k => by simp [mkQuotes, mkQuotes_length vRand ts rest (k + 1)]

lemma insertPrice_not_mem {m : List (String × ℚ)} {t : String} (p : ℚ)
    (h : ∀ e ∈ m, e.1 ≠ t) : insertPrice m t p = m ++ [(t, p)] := by
  unfold insertPrice
  rw [if_neg]
  simp only [List.any_eq_true, not_exists, not_and]
  intro e he
  simpa using h e he

lemma newGen_foldl_length (init : Nat → ℚ) :
    ∀ (ts : List String) (m : List (String × ℚ)) (j : Nat), ts.Nodup →
      (∀ t ∈ ts, ∀ e ∈ m, e.1 ≠ t) →
      (List.foldl (fun m e => insertPrice m e.2 (init e.1)) m (List.enumFrom j ts)).length
        = m.length + ts.length
  | [], m, j, _, _ => by simp
  | t :: ts, m, j, hnd, hdisj => by
    rw [List.enumFrom_cons, List.foldl_cons]
    have hins : insertPrice m t (init j) = m ++ [(t, init j)] :=
      insertPrice_not_mem _ (hdisj t (List.mem_cons_self _ _))
    have hnd2 := (List.nodup_cons.mp hnd).2
    have hnotin := (List.nodup_cons.mp hnd).1
    have hdisj2 : ∀ u ∈ ts, ∀ e ∈ insertPrice m t (init j), e.1 ≠ u := by
      intro u hu e he
      rw [hins] at he
      rcases List.mem_append.mp he with he | he
      · exact hdisj u (List.mem_cons_of_mem _ hu) e he
      · have he2 : e = (t, init j) := by simpa using he
        subst he2
        intro hc
        apply hnotin
        have ht : t = u := hc
        rw [ht]
        exact hu
    have := newGen_foldl_length init ts (insertPrice m t (init j)) (j + 1) hnd2 hdisj2
    rw [this, hins]
    simp
    omega

/-- C3: one call to `generate_all` yields exactly one quote per tracked
ticker (and a generator built from a duplicate-free ticker list tracks one
price per ticker); every price is the previous stored price times the drawn
factor clamped from below at 0.01 — hence strictly positive; every volume is
the drawn value from [100, 10000); and all quotes of the batch carry the
same timestamp. -/
theorem c3_generate_all_properties (fRand : Nat → ℚ) (vRand : Nat → Nat) (ts : Nat)
    (st : List (String × ℚ)) (init : Nat → ℚ) (tickers : List String)
    (hf : ∀ i, 98 / 100 ≤ fRand i ∧ fRand i < 102 / 100)
    (hv : ∀ i, 100 ≤ vRand i ∧ vRand i < 10000)
    (hnd : tickers.Nodup) :
    ((generateAll fRand vRand ts st).2.length = st.length) ∧
    (∀ q ∈ (generateAll fRand vRand ts st).2,
        0 < q.price ∧ 100 ≤ q.volume ∧ q.volume < 10000 ∧ q.timestamp = ts) ∧
    (∀ i, (generateAll fRand vRand ts st).2[i]? =
        st[i]?.map (fun e =>
          (⟨e.1, max (e.2 * fRand i) (1 / 100), vRand i, ts⟩ : StockQuote))) ∧
    ((newGen init tickers).length = tickers.length) := by
  have hpoint : ∀ i, (generateAll fRand vRand ts st).2[i]? =
      st[i]?.map (fun e =>
        (⟨e.1, max (e.2 * fRand i) (1 / 100), vRand i, ts⟩ : StockQuote)) := by
    intro i
    unfold generateAll
    simp only [mkQuotes_getElem?, stepPrices_getElem?, Nat.zero_add, Option.map_map]
    rfl
  refine ⟨?_, ?_, hpoint, ?_⟩
  · unfold generateAll
    simp [mkQuotes_length, stepPrices_length]
  · intro q hq
    obtain ⟨i, hi⟩ := List.mem_iff_getElem?.mp hq
    rw [hpoint i] at hi
    cases he : st[i]? with
    | none => rw [he] at hi; exact Option.noConfusion hi
    | some e =>
      rw [he] at hi
      have hq2 : q = ⟨e.1, max (e.2 * fRand i) (1 / 100), vRand i, ts⟩ := by
        simpa using hi.symm
      subst hq2
      refine ⟨lt_of_lt_of_le (by norm_num) (le_max_right _ _), (hv i).1, (hv i).2, rfl⟩
  · unfold newGen
    have := newGen_foldl_length init tickers [] 0 hnd (by simp)
    simpa [List.enum] using this

/-- C3 witness: the properties instantiated on a one-ticker generator state
with concrete oracle draws. -/
theorem c3_witness :
    ((98 : ℚ) / 100 ≤ 1 ∧ (1 : ℚ) < 102 / 100) ∧
    ((generateAll (fun _ => 1) (fun _ => 100) 5 [("AAPL", 150)]).2.length = 1 ∧
      (∀ q ∈ (generateAll (fun _ => 1) (fun _ => 100) 5 [("AAPL", 150)]).2,
          0 < q.price ∧ 100 ≤ q.volume ∧ q.volume < 10000 ∧ q.timestamp = 5) ∧
      (∀ i : Nat, (generateAll (fun _ => 1) (fun _ => 100) 5 [("AAPL", 150)]).2[i]? =
          ([("AAPL", (150 : ℚ))])[i]?.map (fun e =>
            (⟨e.1, max (e.2 * 1) (1 / 100), 100, 5⟩ : StockQuote))) ∧
      ((newGen (fun _ => 10) ["AAPL"]).length = 1)) := by
  constructor
  · constructor <;> norm_num
  · exact c3_generate_all_properties (fun _ => 1) (fun _ => 100) 5 [("AAPL", 150)]
      (fun _ => 10) ["AAPL"]
      (fun _ => ⟨by norm_num, by norm_num⟩) (fun _ => ⟨by norm_num, by norm_num⟩)
      (by simp)

/-! ### C4 and C5 — the per-client sender loop -/

/-- Whether a step outcome terminated the loop. -/
def StepOutcome.isStop : StepOutcome → Bool
  | .stopped _ _ => true
  | .running _ _ => false

/-- The quotes sent as datagrams during the iteration. -/
def StepOutcome.sent : StepOutcome → List StockQuote
  | .stopped _ s => s
  | .running _ s => s

/-- C4 counterexample: an iteration that sees a fatal read-side error on the
UDP socket (with a live queue and a fresh ping) does not exit — the loop
continues, refuting "exits ... on a fatal read-side I/O error". -/
theorem c4_counterexample :
    senderStep ⟨127, 0, 0, 1, 9⟩ [] (fun _ => true) (fun _ => true) 0
        .timeout .readErr 0 = .running 0 [] ∧
    (senderStep ⟨127, 0, 0, 1, 9⟩ [] (fun _ => true) (fun _ => true) 0
        .timeout .readErr 0).isStop = false :=
  ⟨by decide, by decide⟩

/-- C4 (amended): one iteration of the sender loop exits exactly when the
queue channel is disconnected or when (no matching heartbeat arrived this
iteration and) the truncated-seconds age of `last_ping` exceeds the 5 s
timeout; `last_ping` is updated exactly when a datagram arrives whose source
equals the client's endpoint and whose bytes are the 4-byte heartbeat
payload; read-side I/O errors, receive timeouts and send failures never
terminate the loop. -/
theorem c4_amended_exit_conditions
    (c : SockAddrV4) (F : List String) (serOk sendOk : Nat → Bool)
    (now : Nat) (rx : RecvResult) (udp : UdpRead) (lp : Nat) :
    ((senderStep c F serOk sendOk now rx udp lp).isStop = true ↔
      rx = .disconnected ∨
        (isPing c udp = false ∧ PING_TIMEOUT_SECS < (now - lp) / 1000)) ∧
    (∀ (lp2 : Nat) (s : List StockQuote),
        senderStep c F serOk sendOk now rx udp lp = .running lp2 s →
        lp2 = if isPing c udp then now else lp) ∧
    (isPing c udp = true ↔ ∃ pl, udp = .datagram c pl ∧
      pl.length = PING_PAYLOAD.length ∧ pl = PING_PAYLOAD) := by
  refine ⟨?_, ?_, ?_⟩
  · cases rx with
    | disconnected => simp [senderStep, StepOutcome.isStop]
    | timeout =>
      simp only [senderStep]
      by_cases hping : isPing c udp
      · simp [hping, StepOutcome.isStop, Nat.sub_self]
      · by_cases ht : PING_TIMEOUT_SECS < (now - lp) / 1000 <;>
          simp [hping, ht, StepOutcome.isStop]
    | batch qs =>
      simp only [senderStep]
      by_cases hping : isPing c udp
      · simp [hping, StepOutcome.isStop, Nat.sub_self]
      · by_cases ht : PING_TIMEOUT_SECS < (now - lp) / 1000 <;>
          simp [hping, ht, StepOutcome.isStop]
  · intro lp2 s h
    cases rx with
    | disconnected => exact absurd h (by simp [senderStep])
    | timeout =>
      simp only [senderStep] at h
      by_cases hping : isPing c udp
      all_goals
        simp only [hping, if_true, if_false] at h ⊢
        by_cases htime : PING_TIMEOUT_SECS < (now - (if hping2 : True then
          (if isPing c udp then now else lp) else lp)) / 1000
      all_goals
        first
        | (rw [if_pos (by simpa [hping] using htime)] at h
           exact StepOutcome.noConfusion h)
        | (rw [if_neg (by simpa [hping] using htime)] at h
           injection h with h1 h2
           exact h1.symm)
    | batch qs =>
      simp only [senderStep] at h
      by_cases hping : isPing c udp
      all_goals
        simp only [hping, if_true, if_false] at h ⊢
        by_cases htime : PING_TIMEOUT_SECS < (now - (if hping2 : True then
          (if isPing c udp then now else lp) else lp)) / 1000
      all_goals
        first
        | (rw [if_pos (by simpa [hping] using htime)] at h
           exact StepOutcome.noConfusion h)
        | (rw [if_neg (by simpa [hping] using htime)] at h
           injection h with h1 h2
           exact h1.symm)
  · cases udp with
    | wouldBlock => simp [isPing]
    | readErr => simp [isPing]
    | datagram peer pl =>
      simp only [isPing, Bool.and_eq_true, beq_iff_eq]
      constructor
      · rintro ⟨⟨hpeer, hlen⟩, htake⟩
        subst hpeer
        have hl : pl.length = 4 := by
          have := List.length_take 64 pl
          rw [htake] at this
          simp [PING_PAYLOAD] at this
          omega
        have hpl : pl = PING_PAYLOAD := by
          rw [← htake, List.take_of_length_le (by omega)]
        exact ⟨pl, rfl, by simp [hl, PING_PAYLOAD], hpl⟩
      · rintro ⟨pl2, heq, hlen, hpl⟩
        injection heq with h1 h2
        subst h1
        subst hpl
        subst h2
        refine ⟨⟨rfl, ?_⟩, ?_⟩ <;> decide

/-- C4 witness: a matching heartbeat on an otherwise idle iteration updates
`last_ping` to the iteration clock. -/
theorem c4_witness :
    (senderStep ⟨1, 2, 3, 4, 5⟩ [] (fun _ => true) (fun _ => true) 7 .timeout
        (.datagram ⟨1, 2, 3, 4, 5⟩ PING_PAYLOAD) 0 = .running 7 []) ∧
    (7 : Nat) = (if isPing ⟨1, 2, 3, 4, 5⟩ (.datagram ⟨1, 2, 3, 4, 5⟩ PING_PAYLOAD)
        then 7 else 0) :=
  ⟨by decide,
    (c4_amended_exit_conditions ⟨1, 2, 3, 4, 5⟩ [] (fun _ => true) (fun _ => true) 7
      .timeout (.datagram ⟨1, 2, 3, 4, 5⟩ PING_PAYLOAD) 0).2.1 7 [] (by decide)⟩

/-- C5: in a batch iteration, every datagram sent corresponds to a quote of
the batch whose ticker is in the client's filter; no filtered quote whose
serialization succeeds is skipped (whatever happened to earlier datagrams);
the batch iteration never exits through the queue-closed path; and the
outcome is independent of the per-datagram send results, which the source
only logs. -/
theorem c5_filter_and_per_datagram_errors
    (c : SockAddrV4) (F : List String) (serOk sendOk sendOk2 : Nat → Bool)
    (now : Nat) (qs : List StockQuote) (udp : UdpRead) (lp : Nat) :
    (∀ q ∈ sentQuotes F serOk qs, q ∈ qs ∧ q.ticker ∈ F) ∧
    (∀ (i : Nat) (q : StockQuote),
        (qs.filter (fun q => decide (q.ticker ∈ F)))[i]? = some q → serOk i = true →
        q ∈ sentQuotes F serOk qs) ∧
    ((senderStep c F serOk sendOk now (.batch qs) udp lp).sent = sentQuotes F serOk qs) ∧
    (∀ r, senderStep c F serOk sendOk now (.batch qs) udp lp ≠ .stopped .channelClosed r) ∧
    (senderStep c F serOk sendOk now (.batch qs) udp lp =
      senderStep c F serOk sendOk2 now (.batch qs) udp lp) := by
  refine ⟨?_, ?_, ?_, ?_, rfl⟩
  · intro q hq
    obtain ⟨⟨i, x⟩, hmem, hx⟩ := List.mem_filterMap.mp hq
    obtain ⟨hi, hx2⟩ := List.mem_enum hmem
    by_cases hs : serOk i
    · rw [if_pos hs] at hx
      have hxq : x = q := by simpa using hx
      have hqmem : q ∈ qs.filter (fun q => decide (q.ticker ∈ F)) := by
        rw [← hxq, hx2]
        apply List.getElem_mem
      have hqf := List.mem_filter.mp hqmem
      exact ⟨hqf.1, by simpa using hqf.2⟩
    · rw [if_neg hs] at hx
      exact Option.noConfusion hx
  · intro i q hq hs
    apply List.mem_filterMap.mpr
    refine ⟨(i, q), ?_, by simp [hs]⟩
    apply List.mem_iff_getElem?.mpr
    exact ⟨i, by rw [List.getElem?_enum, hq]; rfl⟩
  · simp only [senderStep]
    split <;> (try split) <;> simp [StepOutcome.sent]
  · intro r
    simp only [senderStep]
    split <;> (try split) <;> simp

/-- C5 witness: a two-quote batch against a one-ticker filter sends exactly
the matching quote. -/
theorem c5_witness :
    ((⟨"AAPL", 1, 1, 1⟩ : StockQuote) ∈ [(⟨"AAPL", 1, 1, 1⟩ : StockQuote),
        ⟨"TSLA", 1, 1, 1⟩] ∧ "AAPL" ∈ ["AAPL"]) ∧
    (⟨"AAPL", 1, 1, 1⟩ : StockQuote) ∈ sentQuotes ["AAPL"] (fun _ => true)
      [⟨"AAPL", 1, 1, 1⟩, ⟨"TSLA", 1, 1, 1⟩] :=
  ⟨(c5_filter_and_per_datagram_errors ⟨1, 2, 3, 4, 5⟩ ["AAPL"] (fun _ => true)
      (fun _ => true) (fun _ => true) 0 [⟨"AAPL", 1, 1, 1⟩, ⟨"TSLA", 1, 1, 1⟩]
      .wouldBlock 0).1 ⟨"AAPL", 1, 1, 1⟩ (by decide),
   (c5_filter_and_per_datagram_errors ⟨1, 2, 3, 4, 5⟩ ["AAPL"] (fun _ => true)
      (fun _ => true) (fun _ => true) 0 [⟨"AAPL", 1, 1, 1⟩, ⟨"TSLA", 1, 1, 1⟩]
      .wouldBlock 0).2.1 0 ⟨"AAPL", 1, 1, 1⟩ (by decide) (by decide)⟩

/-! ### C7 — classification of the handshake response line -/

/-- C7 counterexample: the line `OK127.0.0.1:8080` — which does not begin
with `OK ` (and so falls outside the claim's two prefixed forms) — still
yields success with the parsed address, because the client strips the bare
prefix `OK` and trims before parsing. -/
theorem c7_counterexample :
    classifyResponse "OK127.0.0.1:8080\n" = .accepted ⟨127, 0, 0, 1, 8080⟩ ∧
    stripPrefixChars "OK ".data "OK127.0.0.1:8080\n".data = none ∧
    stripPrefixChars "OK ".data (rustTrim "OK127.0.0.1:8080\n").data = none :=
  ⟨by decide, by decide, by decide⟩

/-- C7 (amended): after trimming the response line, the classification keys
on the bare prefixes `OK` and `ERR` (no following space required): an
`OK`-prefixed line succeeds exactly when its trimmed remainder parses as a
socket address; an `ERR`-prefixed line fails carrying the trimmed remainder;
any other line fails as an unexpected response.  Success still requires the
trimmed line to start with `OK`. -/
theorem c7_amended_classification (r : String) :
    (∀ sa, classifyResponse r = .accepted sa ↔
      ∃ rest, stripPrefixChars "OK".data (rustTrim r).data = some rest ∧
        parseSocketAddr (rustTrim ⟨rest⟩) = some sa) ∧
    (∀ m, classifyResponse r = .rejected m ↔
      stripPrefixChars "OK".data (rustTrim r).data = none ∧
      ∃ rest, stripPrefixChars "ERR".data (rustTrim r).data = some rest ∧
        m = rustTrim ⟨rest⟩) ∧
    (∀ l, classifyResponse r = .unexpected l ↔
      stripPrefixChars "OK".data (rustTrim r).data = none ∧
      stripPrefixChars "ERR".data (rustTrim r).data = none ∧ l = rustTrim r) := by
  unfold classifyResponse
  cases hok : stripPrefixChars "OK".data (rustTrim r).data with
  | some rest =>
    cases haddr : parseSocketAddr (rustTrim ⟨rest⟩) with
    | some sa =>
      refine ⟨fun sa2 => ?_, fun m => ?_, fun l => ?_⟩ <;>
        simp [hok, haddr, eq_comm]
    | none =>
      refine ⟨fun sa2 => ?_, fun m => ?_, fun l => ?_⟩ <;>
        simp [hok, haddr, eq_comm]
  | none =>
    cases herr : stripPrefixChars "ERR".data (rustTrim r).data with
    | some msg =>
      refine ⟨fun sa2 => ?_, fun m => ?_, fun l => ?_⟩ <;>
        simp [hok, herr, eq_comm]
    | none =>
      refine ⟨fun sa2 => ?_, fun m => ?_, fun l => ?_⟩ <;>
        simp [hok, herr, eq_comm]

/-! ### C8 — exact error lines written on a rejected handshake -/

/-- C8 counterexample: for the malformed line `HELLO`, the error line is not
`ERR invalid command format: HELLO` — the reason text is not the offending
line itself but the parser's 'expected ..., got: ...' message around it. -/
theorem c8_counterexample :
    serverResponse "HELLO\n" ["AAPL"] ⟨1, 2, 3, 4, 5⟩ =
      "ERR invalid command format: expected 'STREAM udp://HOST:PORT TICKER,...', got: HELLO\n" ∧
    serverResponse "HELLO\n" ["AAPL"] ⟨1, 2, 3, 4, 5⟩ ≠
      "ERR invalid command format: HELLO\n" :=
  ⟨by decide, by decide⟩

/-- C8 (amended): a rejected handshake writes exactly `ERR ` followed by the
error's display and a newline: `ERR unknown ticker: <T>` for an unknown
(upper-cased) ticker `T`, `ERR invalid UDP address: <A>` for a malformed
address text `A`, and `ERR invalid command format: <m>` for a malformed
command — where `m` is not the offending line but either
`expected 'STREAM udp://HOST:PORT TICKER,...', got: <trimmed line>` or
`no tickers specified`. -/
theorem c8_amended_error_lines (input : String) (K : List String) (u : SockAddrV4) :
    (∀ t, parse_command input K = .error (.unknownTicker t) →
      serverResponse input K u = "ERR unknown ticker: " ++ t ++ "\n") ∧
    (∀ a, parse_command input K = .error (.invalidAddress a) →
      serverResponse input K u = "ERR invalid UDP address: " ++ a ++ "\n") ∧
    (∀ m, parse_command input K = .error (.invalidCommand m) →
      serverResponse input K u = "ERR invalid command format: " ++ m ++ "\n") ∧
    (∀ m, parse_command input K = .error (.invalidCommand m) →
      m = invalidCommandMsg (rustTrim input) ∨ m = "no tickers specified") := by
  refine ⟨?_, ?_, ?_, ?_⟩
  · intro t h
    unfold serverResponse
    rw [h]
    rfl
  · intro a h
    unfold serverResponse
    rw [h]
    rfl
  · intro m h
    unfold serverResponse
    rw [h]
    rfl
  · intro m h
    unfold parse_command parseTrimmed at h
    cases hsp : splitn 3 ' ' (rustTrim input).data with
    | nil =>
      rw [hsp] at h
      simp only at h
      left
      injection h with h2
      injection h2 with h3
      exact h3.symm
    | cons p0 rest =>
      cases rest with
      | nil =>
        rw [hsp] at h
        simp only at h
        left
        injection h with h2
        injection h2 with h3
        exact h3.symm
      | cons p1 rest2 =>
        cases rest2 with
        | nil =>
          rw [hsp] at h
          simp only at h
          left
          injection h with h2
          injection h2 with h3
          exact h3.symm
        | cons p2 rest3 =>
          cases rest3 with
          | cons x xs =>
            rw [hsp] at h
            simp only at h
            left
            injection h with h2
            injection h2 with h3
            exact h3.symm
          | nil =>
            rw [hsp] at h
            simp only at h
            by_cases hcmd : (⟨p0⟩ : String) = CMD_STREAM
            · rw [if_pos hcmd] at h
              cases hstrip : stripPrefixChars "udp://".data p1 with
              | none =>
                injection (hstrip ▸ h) with h2
                exact ProtocolError.noConfusion h2
              | some addrChars =>
                rw [hstrip] at h
                simp only at h
                cases haddr : parseSocketAddr ⟨addrChars⟩ with
                | none =>
                  injection (haddr ▸ h) with h2
                  exact ProtocolError.noConfusion h2
                | some udpAddr =>
                  rw [haddr] at h
                  simp only at h
                  by_cases hemp : dedupTickers []
                      ((splitOnChar ',' p2).map cleanTicker) = []
                  · rw [if_pos hemp] at h
                    right
                    injection h with h2
                    injection h2 with h3
                    exact h3.symm
                  · rw [if_neg hemp] at h
                    cases hfind : (dedupTickers []
                        ((splitOnChar ',' p2).map cleanTicker)).find?
                        (fun t => decide (t ∉ K)) with
                    | some t =>
                      injection (hfind ▸ h) with h2
                      exact ProtocolError.noConfusion h2
                    | none =>
                      rw [hfind] at h
                      exact Except.noConfusion h
            · rw [if_neg hcmd] at h
              left
              injection h with h2
              injection h2 with h3
              exact h3.symm

/-- C8 witness: a request with an unknown ticker produces exactly the
`ERR unknown ticker:` line. -/
theorem c8_witness :
    serverResponse "STREAM udp://1.2.3.4:5 ZZZ" ["AAPL"] ⟨1, 2, 3, 4, 5⟩ =
      "ERR unknown ticker: " ++ "ZZZ" ++ "\n" :=
  (c8_amended_error_lines "STREAM udp://1.2.3.4:5 ZZZ" ["AAPL"] ⟨1, 2, 3, 4, 5⟩).1
    "ZZZ" rfl

/-! ### C6 — decimal print/parse round-trip machinery -/

lemma natDigitsRevAux_zero (f : Nat) : natDigitsRevAux f 0 = [] := by
  cases f <;> simp [natDigitsRevAux]

lemma natDigitsRevAux_congr :
    ∀ (f1 f2 n : Nat), n ≤ f1 → n ≤ f2 → natDigitsRevAux f1 n = natDigitsRevAux f2 n
  | 0, f2, n, h1, _ => by
    have : n = 0 := Nat.le_zero.mp h1
    subst this
    rw [natDigitsRevAux_zero, natDigitsRevAux_zero]
  | f1 + 1, f2, n, h1, h2 => by
    by_cases hn : n = 0
    · subst hn
      rw [natDigitsRevAux_zero, natDigitsRevAux_zero]
    · obtain ⟨f2p, rfl⟩ : ∃ f2p, f2 = f2p + 1 := by
        cases f2 with
        | zero => exact absurd (Nat.le_zero.mp h2) hn
        | succ m => exact ⟨m, rfl⟩
      show (if n = 0 then [] else n % 10 :: natDigitsRevAux f1 (n / 10))
        = (if n = 0 then [] else n % 10 :: natDigitsRevAux f2p (n / 10))
      rw [if_neg hn, if_neg hn]
      have hd : n / 10 < n := Nat.div_lt_self (Nat.pos_of_ne_zero hn) (by omega)
      rw [natDigitsRevAux_congr f1 f2p (n / 10) (by omega) (by omega)]

lemma natDigitsRev_succ {n : Nat} (hn : n ≠ 0) :
    natDigitsRev n = n % 10 :: natDigitsRev (n / 10) := by
  obtain ⟨m, rfl⟩ : ∃ m, n = m + 1 := ⟨n - 1, by omega⟩
  show (if m + 1 = 0 then [] else (m + 1) % 10 :: natDigitsRevAux m ((m + 1) / 10))
    = (m + 1) % 10 :: natDigitsRev ((m + 1) / 10)
  rw [if_neg hn]
  unfold natDigitsRev
  have hd : (m + 1) / 10 ≤ m := by omega
  rw [natDigitsRevAux_congr m ((m + 1) / 10) ((m + 1) / 10) hd le_rfl]

lemma natDigitsRev_ne_nil {n : Nat} (hn : n ≠ 0) : natDigitsRev n ≠ [] := by
  rw [natDigitsRev_succ hn]
  simp

lemma natDigitsRev_lt (n : Nat) : ∀ d ∈ natDigitsRev n, d < 10 := by
  induction n using Nat.strong_induction_on with
  | _ n ih =>
    by_cases hn : n = 0
    · subst hn
      intro d hd
      simp [natDigitsRev, natDigitsRevAux] at hd
    · rw [natDigitsRev_succ hn]
      intro d hd
      rcases List.mem_cons.mp hd with rfl | hd
      · omega
      · exact ih (n / 10) (Nat.div_lt_self (Nat.pos_of_ne_zero hn) (by omega)) d hd

/-- Value of a most-significant-first digit list extending an accumulator. -/
def valAcc (acc : Nat) (ds : List Nat) : Nat := ds.foldl (fun a d => a * 10 + d) acc

lemma valAcc_nil (acc : Nat) : valAcc acc [] = acc := rfl

lemma valAcc_cons (acc d : Nat) (ds : List Nat) :
    valAcc acc (d :: ds) = valAcc (acc * 10 + d) ds := rfl

lemma valAcc_append_one (acc d : Nat) (ds : List Nat) :
    valAcc acc (ds ++ [d]) = valAcc acc ds * 10 + d := by
  unfold valAcc
  rw [List.foldl_append]
  rfl

lemma valAcc_le (acc : Nat) : ∀ ds : List Nat, acc ≤ valAcc acc ds
  | [] => le_rfl
  | d :: ds => by
    rw [valAcc_cons]
    calc acc ≤ acc * 10 + d := by omega
    _ ≤ valAcc (acc * 10 + d) ds := valAcc_le _ ds

lemma valAcc_digits (n : Nat) : ∀ acc,
    valAcc acc (natDigitsRev n).reverse = acc * 10 ^ (natDigitsRev n).length + n := by
  induction n using Nat.strong_induction_on with
  | _ n ih =>
    intro acc
    by_cases hn : n = 0
    · subst hn
      simp [natDigitsRev, natDigitsRevAux, valAcc]
    · rw [natDigitsRev_succ hn]
      simp only [List.reverse_cons, List.length_cons]
      rw [valAcc_append_one, ih (n / 10) (Nat.div_lt_self (Nat.pos_of_ne_zero hn) (by omega))]
      rw [pow_succ]
      have := Nat.div_add_mod n 10
      ring_nf
      omega

lemma natDigitsRev_length_le : ∀ (k n : Nat), n < 10 ^ k → (natDigitsRev n).length ≤ k
  | 0, n, h => by
    have : n = 0 := by simpa using h
    subst this
    simp [natDigitsRev, natDigitsRevAux]
  | k + 1, n, h => by
    by_cases hn : n = 0
    · subst hn
      simp [natDigitsRev, natDigitsRevAux]
    · rw [natDigitsRev_succ hn]
      simp only [List.length_cons]
      have hlt : n / 10 < 10 ^ k := by
        rw [Nat.div_lt_iff_lt_mul (by omega : 0 < 10)]
        calc n < 10 ^ (k + 1) := h
        _ = 10 ^ k * 10 := by ring
      have := natDigitsRev_length_le k (n / 10) hlt
      omega

lemma natDigitsRev_getLast_ne_zero (n : Nat) (hn : n ≠ 0) :
    ∀ d, (natDigitsRev n).getLast? = some d → d ≠ 0 := by
  induction n using Nat.strong_induction_on with
  | _ n ih =>
    intro d hd
    by_cases hsmall : n < 10
    · rw [natDigitsRev_succ hn] at hd
      have h10 : n / 10 = 0 := Nat.div_eq_of_lt hsmall
      rw [h10] at hd
      have : natDigitsRev 0 = [] := rfl
      rw [this] at hd
      simp [List.getLast?] at hd
      omega
    · rw [natDigitsRev_succ hn] at hd
      have hne : natDigitsRev (n / 10) ≠ [] := natDigitsRev_ne_nil (by omega)
      have hcons : (n % 10 :: natDigitsRev (n / 10)).getLast? =
          (natDigitsRev (n / 10)).getLast? := by
        cases hc : natDigitsRev (n / 10) with
        | nil => exact absurd hc hne
        | cons b bs => exact List.getLast?_cons_cons ..
      rw [hcons] at hd
      exact ih (n / 10) (Nat.div_lt_self (Nat.pos_of_ne_zero hn) (by omega)) (by omega) d hd

lemma decChar_isDigit (d : Nat) : (decChar d).isDigit = true := by
  unfold decChar
  split <;> decide

lemma digitVal_decChar {d : Nat} (h : d < 10) : digitVal (decChar d) = d := by
  interval_cases d <;> decide

lemma decChar_ne_zero {d : Nat} (h : d < 10) (h0 : d ≠ 0) : decChar d ≠ '0' := by
  interval_cases d
  · exact absurd rfl h0
  all_goals decide

/-- Most-significant-first decimal digits, with the single digit `0` for
zero (the digit list that `natToChars` prints). -/
def decDigitsMS (n : Nat) : List Nat :=
  if n = 0 then [0] else (natDigitsRev n).reverse

lemma natToChars_eq_map (n : Nat) : natToChars n = (decDigitsMS n).map decChar := by
  unfold natToChars decDigitsMS
  by_cases hn : n = 0 <;> simp [hn, decChar]

lemma decDigitsMS_lt (n : Nat) : ∀ d ∈ decDigitsMS n, d < 10 := by
  unfold decDigitsMS
  by_cases hn : n = 0 <;> simp [hn]
  · intro d hd
    exact natDigitsRev_lt n d hd

lemma decDigitsMS_ne_nil (n : Nat) : decDigitsMS n ≠ [] := by
  unfold decDigitsMS
  by_cases hn : n = 0 <;> simp [hn]
  exact natDigitsRev_ne_nil hn

lemma valAcc_decDigitsMS (n : Nat) : valAcc 0 (decDigitsMS n) = n := by
  unfold decDigitsMS
  by_cases hn : n = 0 <;> simp [hn]
  · rfl
  · rw [valAcc_digits n 0]
    simp

lemma readDigits_exact :
    ∀ (ds : List Nat) (rest : List Char) (bound : Nat) (maxd : Option Nat)
      (acc cnt : Nat),
      (∀ d ∈ ds, d < 10) →
      (∀ c, rest.head? = some c → c.isDigit = false) →
      valAcc acc ds ≤ bound →
      (∀ m, maxd = some m → cnt + ds.length ≤ m) →
      readDigits bound maxd (ds.map decChar ++ rest) acc cnt
        = some (valAcc acc ds, cnt + ds.length, rest)
  | [], rest, bound, maxd, acc, cnt, _, hrest, _, _ => by
    cases rest with
    | nil => simp [readDigits, valAcc_nil]
    | cons c cs =>
      have : c.isDigit = false := hrest c rfl
      simp [readDigits, this, valAcc_nil]
  | d :: ds, rest, bound, maxd, acc, cnt, hds, hrest, hb, hm => by
    have hd10 : d < 10 := hds d (List.mem_cons_self _ _)
    have hdig : (decChar d).isDigit = true := decChar_isDigit d
    have hdv : digitVal (decChar d) = d := digitVal_decChar hd10
    have hb2 : valAcc (acc * 10 + d) ds ≤ bound := by rw [← valAcc_cons]; exact hb
    have hacc : ¬bound < acc * 10 + d := by
      have := valAcc_le (acc * 10 + d) ds
      omega
    have hrec := readDigits_exact ds rest bound maxd (acc * 10 + d) (cnt + 1)
      (fun x hx => hds x (List.mem_cons_of_mem _ hx)) hrest hb2
      (fun m hmm => by have := hm m hmm; simp only [List.length_cons] at this; omega)
    have harr : cnt + 1 + ds.length = cnt + (d :: ds).length := by
      simp only [List.length_cons]
      omega
    cases maxd with
    | none =>
      show readDigits bound none (decChar d :: (ds.map decChar ++ rest)) acc cnt = _
      simp only [readDigits, hdig, if_true, hdv, if_neg hacc]
      rw [hrec, valAcc_cons, harr]
    | some m =>
      have hcnt : ¬m < cnt + 1 := by
        have := hm m rfl
        simp only [List.length_cons] at this
        omega
      show readDigits bound (some m) (decChar d :: (ds.map decChar ++ rest)) acc cnt = _
      simp only [readDigits, hdig, if_true, hdv, if_neg hacc, if_neg hcnt]
      rw [hrec, valAcc_cons, harr]

lemma readNumber_natToChars (bound : Nat) (maxd : Option Nat) (azp : Bool) (n : Nat)
    (rest : List Char) (hn : n ≤ bound)
    (hrest : ∀ c, rest.head? = some c → c.isDigit = false)
    (hlen : ∀ m, maxd = some m → (decDigitsMS n).length ≤ m) :
    readNumber bound maxd azp (natToChars n ++ rest) = some (n, rest) := by
  have hrd := readDigits_exact (decDigitsMS n) rest bound maxd 0 0
    (decDigitsMS_lt n) hrest (by rw [valAcc_decDigitsMS]; exact hn)
    (fun m hm => by simpa using hlen m hm)
  rw [natToChars_eq_map]
  show (match readDigits bound maxd ((decDigitsMS n).map decChar ++ rest) 0 0 with
    | none => none
    | some (v, cnt, r2) =>
      if cnt = 0 then none
      else if !azp && ((((decDigitsMS n).map decChar ++ rest).head?) == some '0')
          && decide (1 < cnt) then none
      else some (v, r2)) = some (n, rest)
  rw [hrd]
  simp only [Nat.zero_add]
  have hlen0 : ¬((decDigitsMS n).length = 0) := by
    simpa [List.length_eq_zero] using decDigitsMS_ne_nil n
  rw [if_neg hlen0]
  by_cases hn0 : n = 0
  · subst hn0
    have h1 : decDigitsMS 0 = [0] := rfl
    rw [h1]
    simp
    rfl
  · have hlead : ((((decDigitsMS n).map decChar ++ rest).head?) == some '0') = false := by
      rw [beq_eq_false_iff_ne]
      unfold decDigitsMS
      rw [if_neg hn0]
      cases hrev : (natDigitsRev n).reverse with
      | nil =>
        simp only [List.reverse_eq_nil_iff] at hrev
        exact absurd hrev (natDigitsRev_ne_nil hn0)
      | cons d0 ds =>
        have hd0 : (natDigitsRev n).getLast? = some d0 := by
          rw [← List.head?_reverse, hrev]
          rfl
        have hne0 : d0 ≠ 0 := natDigitsRev_getLast_ne_zero n hn0 d0 hd0
        have hlt : d0 < 10 := by
          apply natDigitsRev_lt n
          have hmem : d0 ∈ (natDigitsRev n).reverse := by
            rw [hrev]
            exact List.mem_cons_self _ _
          simpa using hmem
        simp only [List.map_cons, List.cons_append, List.head?_cons]
        intro hc
        have hc2 : decChar d0 = '0' := by simpa using hc
        exact decChar_ne_zero hlt hne0 hc2
    rw [hlead]
    simp
    exact valAcc_decDigitsMS n

lemma readOctet_natToChars (n : Nat) (hn : n ≤ 255) (rest : List Char)
    (hrest : ∀ c, rest.head? = some c → c.isDigit = false) :
    readOctet (natToChars n ++ rest) = some (n, rest) := by
  unfold readOctet
  apply readNumber_natToChars _ _ _ _ _ hn hrest
  intro m hm
  injection hm with hm2
  subst hm2
  unfold decDigitsMS
  by_cases h0 : n = 0
  · simp [h0]
  · rw [if_neg h0]
    simp only [List.length_reverse]
    exact natDigitsRev_length_le 3 n (by omega)

lemma readGivenChar_cons (c : Char) (xs : List Char) :
    readGivenChar c (c :: xs) = some xs := by
  simp [readGivenChar]

lemma readPort_natToChars (p : Nat) (hp : p ≤ 65535) :
    readPort (':' :: natToChars p) = some (p, []) := by
  unfold readPort
  rw [readGivenChar_cons]
  have h := readNumber_natToChars 65535 none true p [] hp
    (by intro c hc; simp at hc) (by intro m hm; exact Option.noConfusion hm)
  simpa using h

lemma head_dot_not_digit :
    ∀ (xs : List Char) (c : Char), ('.' :: xs).head? = some c → c.isDigit = false := by
  intro xs c hc
  have : c = '.' := by simpa using hc.symm
  subst this
  decide

lemma head_colon_not_digit :
    ∀ (xs : List Char) (c : Char), (':' :: xs).head? = some c → c.isDigit = false := by
  intro xs c hc
  have : c = ':' := by simpa using hc.symm
  subst this
  decide

lemma parseSocketAddr_showAddr (x : SockAddrV4)
    (ha : x.ipa ≤ 255) (hb : x.ipb ≤ 255) (hc : x.ipc ≤ 255) (hd : x.ipd ≤ 255)
    (hp : x.port ≤ 65535) :
    parseSocketAddr (showAddr x) = some x := by
  obtain ⟨a, b, c, d, p⟩ := x
  simp only at ha hb hc hd hp
  have h1 := readOctet_natToChars a ha
    ('.' :: (natToChars b ++ '.' :: (natToChars c ++ '.' :: (natToChars d ++
      ':' :: natToChars p)))) (head_dot_not_digit _)
  have h2 := readOctet_natToChars b hb
    ('.' :: (natToChars c ++ '.' :: (natToChars d ++ ':' :: natToChars p)))
    (head_dot_not_digit _)
  have h3 := readOctet_natToChars c hc
    ('.' :: (natToChars d ++ ':' :: natToChars p)) (head_dot_not_digit _)
  have h4 := readOctet_natToChars d hd (':' :: natToChars p) (head_colon_not_digit _)
  have hip : readIpv4 (natToChars a ++ '.' :: (natToChars b ++ '.' :: (natToChars c ++
      '.' :: (natToChars d ++ ':' :: natToChars p))))
      = some ((a, b, c, d), ':' :: natToChars p) := by
    unfold readIpv4
    rw [h1]
    simp only
    rw [readGivenChar_cons]
    simp only
    rw [h2]
    simp only
    rw [readGivenChar_cons]
    simp only
    rw [h3]
    simp only
    rw [readGivenChar_cons]
    simp only
    rw [h4]
  unfold parseSocketAddr showAddr
  simp only [List.cons_append, List.append_assoc] at hip ⊢
  rw [hip]
  simp only
  rw [readPort_natToChars p hp]
  simp

lemma natToChars_all_digit (n : Nat) : ∀ c ∈ natToChars n, c.isDigit = true := by
  rw [natToChars_eq_map]
  intro c hc
  obtain ⟨d, -, rfl⟩ := List.mem_map.mp hc
  exact decChar_isDigit d

lemma splitFirst_append_sep (sep : Char) :
    ∀ (xs rest : List Char), (∀ c ∈ xs, c ≠ sep) →
      splitFirst sep (xs ++ sep :: rest) = some (xs, rest)
  | [], rest, _ => by simp [splitFirst]
  | x :: xs, rest, h => by
    have hx : x ≠ sep := h x (List.mem_cons_self _ _)
    simp only [List.cons_append, splitFirst, if_neg hx, List.append_eq]
    rw [splitFirst_append_sep sep xs rest (fun c hc => h c (List.mem_cons_of_mem _ hc))]

lemma splitn3_exact (X Y Z : List Char)
    (hX : ∀ c ∈ X, c ≠ ' ') (hY : ∀ c ∈ Y, c ≠ ' ') :
    splitn 3 ' ' (X ++ ' ' :: (Y ++ ' ' :: Z)) = [X, Y, Z] := by
  show (match splitFirst ' ' (X ++ ' ' :: (Y ++ ' ' :: Z)) with
    | none => [X ++ ' ' :: (Y ++ ' ' :: Z)]
    | some (a, b) => a :: splitn 2 ' ' b) = [X, Y, Z]
  rw [splitFirst_append_sep ' ' X _ hX]
  show X :: (match splitFirst ' ' (Y ++ ' ' :: Z) with
    | none => [Y ++ ' ' :: Z]
    | some (a, b) => a :: splitn 1 ' ' b) = [X, Y, Z]
  rw [splitFirst_append_sep ' ' Y _ hY]
  rfl

lemma splitOnAux_no_sep (sep : Char) :
    ∀ (t acc : List Char), (∀ c ∈ t, c ≠ sep) →
      splitOnAux sep t acc = [acc.reverse ++ t]
  | [], acc, _ => by simp [splitOnAux]
  | c :: cs, acc, h => by
    simp only [splitOnAux, if_neg (h c (List.mem_cons_self _ _))]
    rw [splitOnAux_no_sep sep cs (c :: acc) (fun x hx => h x (List.mem_cons_of_mem _ hx))]
    simp

lemma splitOnAux_sep (sep : Char) :
    ∀ (t rest acc : List Char), (∀ c ∈ t, c ≠ sep) →
      splitOnAux sep (t ++ sep :: rest) acc
        = (acc.reverse ++ t) :: splitOnAux sep rest []
  | [], rest, acc, _ => by simp [splitOnAux]
  | c :: cs, rest, acc, h => by
    simp only [List.cons_append, splitOnAux, if_neg (h c (List.mem_cons_self _ _)),
      List.append_eq]
    rw [splitOnAux_sep sep cs rest (c :: acc) (fun x hx => h x (List.mem_cons_of_mem _ hx))]
    simp

lemma joinComma_cons₂_data (t u : String) (us : List String) :
    (joinComma (t :: u :: us)).data = t.data ++ ',' :: (joinComma (u :: us)).data := by
  show ((t ++ ",") ++ joinComma (u :: us)).data = _
  simp [String.data_append, List.append_assoc]

lemma splitOnChar_joinComma :
    ∀ (ts : List String), ts ≠ [] → (∀ t ∈ ts, ∀ c ∈ t.data, c ≠ ',') →
      splitOnChar ',' (joinComma ts).data = ts.map String.data
  | [], h, _ => absurd rfl h
  | [t], _, h => by
    show splitOnAux ',' t.data [] = [t.data]
    rw [splitOnAux_no_sep ',' t.data [] (h t (List.mem_cons_self _ _))]
    simp
  | t :: u :: us, _, h => by
    show splitOnAux ',' (joinComma (t :: u :: us)).data [] = _
    rw [joinComma_cons₂_data]
    rw [splitOnAux_sep ',' t.data _ [] (h t (List.mem_cons_self _ _))]
    have hrec := splitOnChar_joinComma (u :: us) (by simp)
      (fun x hx => h x (List.mem_cons_of_mem _ hx))
    show ([].reverse ++ t.data) :: splitOnAux ',' (joinComma (u :: us)).data [] = _
    rw [show splitOnAux ',' (joinComma (u :: us)).data []
        = splitOnChar ',' (joinComma (u :: us)).data from rfl, hrec]
    simp

lemma trimChars_eq_self {l : List Char}
    (hhead : ∀ c, l.head? = some c → rustIsWs c = false)
    (hlast : ∀ c, l.getLast? = some c → rustIsWs c = false) :
    trimChars l = l := by
  have hL : trimLeftChars l = l := by
    cases l with
    | nil => rfl
    | cons c cs =>
      have := hhead c rfl
      simp [trimLeftChars, List.dropWhile_cons, this]
  unfold trimChars
  rw [hL]
  unfold trimRightChars
  cases hr : l.reverse with
  | nil =>
    have : l = [] := List.reverse_eq_nil_iff.mp hr
    subst this
    rfl
  | cons c cs =>
    have hcl : l.getLast? = some c := by
      rw [← List.head?_reverse, hr]
      rfl
    have hnw := hlast c hcl
    rw [List.dropWhile_cons, if_neg (by simp [hnw])]
    rw [← hr, List.reverse_reverse]

lemma getLast_not_ws_of_trim_eq {t : String} (h : rustTrim t = t) :
    ∀ c, t.data.getLast? = some c → rustIsWs c = false := by
  intro c hc
  by_contra hws0
  have hws : rustIsWs c = true := by simpa using hws0
  have hlen : (trimChars t.data).length < t.data.length := by
    unfold trimChars
    have hsuf : trimLeftChars t.data <:+ t.data := List.dropWhile_suffix _
    by_cases hAn : trimLeftChars t.data = []
    · rw [hAn]
      have hne : t.data ≠ [] := by
        intro h0
        rw [h0] at hc
        simp at hc
      have : 0 < t.data.length := List.length_pos.mpr hne
      simpa [trimRightChars] using this
    · have hlastA : (trimLeftChars t.data).getLast? = some c :=
        (getLast?_of_suffix hsuf hAn).symm.trans hc
      cases hrA : (trimLeftChars t.data).reverse with
      | nil => exact absurd (List.reverse_eq_nil_iff.mp hrA) hAn
      | cons c2 tl =>
        have hc2 : c2 = c := by
          have hh := List.head?_reverse (trimLeftChars t.data)
          rw [hrA] at hh
          rw [hlastA] at hh
          simpa using hh
        subst hc2
        unfold trimRightChars
        rw [hrA, List.dropWhile_cons, if_pos hws]
        have h1 : (List.dropWhile rustIsWs tl).length ≤ tl.length :=
          (List.dropWhile_suffix _).length_le
        have h2 : (trimLeftChars t.data).length = tl.length + 1 := by
          have := congrArg List.length hrA
          simpa using this
        have h3 : (trimLeftChars t.data).length ≤ t.data.length := hsuf.length_le
        simp only [List.length_reverse]
        omega
  have heq : trimChars t.data = t.data := congrArg String.data h
  rw [heq] at hlen
  omega

lemma joinComma_data_ne_nil :
    ∀ (ts : List String), ts ≠ [] → (∀ t ∈ ts, t ≠ "") → (joinComma ts).data ≠ []
  | [], h, _ => absurd rfl h
  | [t], _, h => by
    show t.data ≠ []
    intro h0
    apply h t (List.mem_cons_self _ _)
    cases t
    simp_all
  | t :: u :: us, _, h => by
    rw [joinComma_cons₂_data]
    intro h0
    have ht : t.data = [] ∧ (',' :: (joinComma (u :: us)).data) = [] := by
      simpa using List.append_eq_nil.mp h0
    simp at ht

lemma joinComma_getLast_not_ws :
    ∀ (ts : List String), (∀ t ∈ ts, t ≠ "" ∧ rustTrim t = t) →
      ∀ c, (joinComma ts).data.getLast? = some c → rustIsWs c = false
  | [], _, c, hc => by simp [joinComma] at hc
  | [t], h, c, hc => getLast_not_ws_of_trim_eq (h t (List.mem_cons_self _ _)).2 c hc
  | t :: u :: us, h, c, hc => by
    rw [joinComma_cons₂_data, List.getLast?_append] at hc
    have hne : (joinComma (u :: us)).data ≠ [] :=
      joinComma_data_ne_nil (u :: us) (by simp)
        (fun x hx => (h x (List.mem_cons_of_mem _ hx)).1)
    have hcons : (',' :: (joinComma (u :: us)).data).getLast?
        = (joinComma (u :: us)).data.getLast? := by
      cases hj : (joinComma (u :: us)).data with
      | nil => exact absurd hj hne
      | cons b bs => exact List.getLast?_cons_cons ..
    rw [hcons] at hc
    cases hj : (joinComma (u :: us)).data.getLast? with
    | none =>
      rw [hj] at hc
      simp only [Option.none_or] at hc
      exact absurd (List.getLast?_eq_none_iff.mp hj) hne
    | some c2 =>
      rw [hj] at hc
      simp only [Option.or] at hc
      have : c2 = c := by simpa using hc
      subst this
      exact joinComma_getLast_not_ws (u :: us)
        (fun x hx => h x (List.mem_cons_of_mem _ hx)) c2 hj

lemma dedupTickers_id :
    ∀ (ts seen : List String), ts.Nodup → (∀ t ∈ ts, t ≠ "" ∧ t ∉ seen) →
      dedupTickers seen ts = ts
  | [], _, _, _ => rfl
  | t :: ts, seen, hnd, h => by
    have ht := h t (List.mem_cons_self _ _)
    unfold dedupTickers
    rw [if_neg ht.1, if_neg ht.2]
    congr 1
    apply dedupTickers_id ts (t :: seen) (List.nodup_cons.mp hnd).2
    intro u hu
    refine ⟨(h u (List.mem_cons_of_mem _ hu)).1, ?_⟩
    intro hmem
    rcases List.mem_cons.mp hmem with rfl | hmem
    · exact (List.nodup_cons.mp hnd).1 hu
    · exact (h u (List.mem_cons_of_mem _ hu)).2 hmem

lemma stripPrefixChars_append :
    ∀ (p rest : List Char), stripPrefixChars p (p ++ rest) = some rest
  | [], rest => rfl
  | x :: xs, rest => by
    simp only [List.cons_append, stripPrefixChars, if_pos rfl]
    exact stripPrefixChars_append xs rest

lemma showAddr_no_space (x : SockAddrV4) : ∀ c ∈ (showAddr x).data, c ≠ ' ' := by
  have hdig : ∀ (n : Nat) (c : Char), c ∈ natToChars n → c ≠ ' ' := by
    intro n c hcn hcontra
    subst hcontra
    have := natToChars_all_digit n ' ' hcn
    exact absurd this (by decide)
  intro c hcmem
  show c ≠ ' '
  have : c ∈ natToChars x.ipa ∨ c = '.' ∨ c ∈ natToChars x.ipb ∨ c ∈ natToChars x.ipc ∨
      c ∈ natToChars x.ipd ∨ c = ':' ∨ c ∈ natToChars x.port := by
    have hm : c ∈ natToChars x.ipa ++ '.' :: natToChars x.ipb ++ '.' :: natToChars x.ipc ++
        '.' :: natToChars x.ipd ++ ':' :: natToChars x.port := hcmem
    simp only [List.mem_append, List.mem_cons] at hm
    tauto
  rcases this with h | h | h | h | h | h | h
  · exact hdig _ _ h
  · subst h; decide
  · exact hdig _ _ h
  · exact hdig _ _ h
  · exact hdig _ _ h
  · subst h; decide
  · exact hdig _ _ h

lemma rustTrim_eq_self {s : String}
    (hhead : ∀ c, s.data.head? = some c → rustIsWs c = false)
    (hlast : ∀ c, s.data.getLast? = some c → rustIsWs c = false) :
    rustTrim s = s := by
  unfold rustTrim
  rw [trimChars_eq_self hhead hlast]

/-- C6 counterexample: the StreamCommand with the single ticker `A,B` —
upper-case, duplicate-free, and a member of the known set `{A,B}` — does not
survive the round trip: serializing writes `A,B` into the comma-separated
field, and parsing splits it into `A` and `B`, failing with an unknown
ticker, not returning the command. -/
theorem c6_counterexample :
    (∀ t ∈ (["A,B"] : List String), upperStr t = t ∧ t ∈ (["A,B"] : List String)) ∧
    (["A,B"] : List String).Nodup ∧ (["A,B"] : List String) ≠ [] ∧
    parse_command (serializeCommand ⟨⟨127, 0, 0, 1, 80⟩, ["A,B"]⟩) ["A,B"]
      = .error (.unknownTicker "A") ∧
    parse_command (serializeCommand ⟨⟨127, 0, 0, 1, 80⟩, ["A,B"]⟩) ["A,B"]
      ≠ .ok ⟨⟨127, 0, 0, 1, 80⟩, ["A,B"]⟩ := by
  refine ⟨by decide, by decide, by decide, rfl, ?_⟩
  intro hcontra
  rw [show parse_command (serializeCommand ⟨⟨127, 0, 0, 1, 80⟩, ["A,B"]⟩) ["A,B"]
    = .error (.unknownTicker "A") from rfl] at hcontra
  exact Except.noConfusion hcontra

/-- C6 (amended): for every StreamCommand whose ticker list is non-empty and
duplicate-free, whose tickers are non-empty, upper-case, trim-invariant,
comma-free and contained in the known set, and whose IPv4 address components
are in range, serializing it as the client does and parsing the result with
`parse_command` against the same known set yields back the same command. -/
theorem c6_amended_roundtrip (cmd : StreamCommand) (K : List String)
    (hne : cmd.tickers ≠ [])
    (ht : ∀ t ∈ cmd.tickers, t ≠ "" ∧ rustTrim t = t ∧ upperStr t = t ∧
      (∀ c ∈ t.data, c ≠ ',') ∧ t ∈ K)
    (hnd : cmd.tickers.Nodup)
    (ha : cmd.udpAddr.ipa ≤ 255 ∧ cmd.udpAddr.ipb ≤ 255 ∧ cmd.udpAddr.ipc ≤ 255 ∧
      cmd.udpAddr.ipd ≤ 255 ∧ cmd.udpAddr.port ≤ 65535) :
    parse_command (serializeCommand cmd) K = .ok cmd := by
  obtain ⟨addr, ts⟩ := cmd
  simp only at hne ht hnd ha
  have hJne : (joinComma ts).data ≠ [] :=
    joinComma_data_ne_nil ts hne (fun t htm => (ht t htm).1)
  -- the request line with its trailing newline removed
  have htrim : rustTrim ("STREAM udp://" ++ showAddr addr ++ " " ++ joinComma ts ++ "\n")
      = "STREAM udp://" ++ showAddr addr ++ " " ++ joinComma ts := by
    rw [rustTrim_append_newline]
    apply rustTrim_eq_self
    · intro c hc
      rw [show ("STREAM udp://" ++ showAddr addr ++ " " ++ joinComma ts).data
        = 'S' :: ("TREAM udp://".data ++ (showAddr addr).data ++ " ".data
          ++ (joinComma ts).data) from by simp [String.data_append]] at hc
      have : c = 'S' := by simpa using hc.symm
      subst this
      decide
    · intro c hc
      rw [String.data_append, List.getLast?_append] at hc
      cases hj : (joinComma ts).data.getLast? with
      | none => exact absurd (List.getLast?_eq_none_iff.mp hj) hJne
      | some c2 =>
        rw [hj] at hc
        simp only [Option.or] at hc
        have : c2 = c := by simpa using hc
        subst this
        exact joinComma_getLast_not_ws ts (fun t htm => ⟨(ht t htm).1, (ht t htm).2.1⟩) c2 hj
  have hsplit : splitn 3 ' '
      ("STREAM udp://" ++ showAddr addr ++ " " ++ joinComma ts).data
      = ["STREAM".data, "udp://".data ++ (showAddr addr).data, (joinComma ts).data] := by
    have hd : ("STREAM udp://" ++ showAddr addr ++ " " ++ joinComma ts).data
        = "STREAM".data ++ ' ' :: (("udp://".data ++ (showAddr addr).data)
          ++ ' ' :: (joinComma ts).data) := by
      simp [String.data_append, List.append_assoc]
    rw [hd]
    apply splitn3_exact
    · decide
    · intro c hc
      rcases List.mem_append.mp hc with hc | hc
      · have hu : ∀ x ∈ ("udp://".data : List Char), x ≠ ' ' := by decide
        exact hu c hc
      · exact showAddr_no_space addr c hc
  unfold parse_command
  show parseTrimmed (rustTrim ("STREAM udp://" ++ showAddr addr ++ " "
    ++ joinComma ts ++ "\n")) K = Except.ok ⟨addr, ts⟩
  rw [htrim]
  unfold parseTrimmed
  rw [hsplit]
  simp only
  rw [if_pos (show (⟨"STREAM".data⟩ : String) = CMD_STREAM from rfl)]
  rw [stripPrefixChars_append]
  simp only
  rw [show (⟨(showAddr addr).data⟩ : String) = showAddr addr from rfl]
  rw [parseSocketAddr_showAddr addr ha.1 ha.2.1 ha.2.2.1 ha.2.2.2.1 ha.2.2.2.2]
  simp only
  have hsplitJ : splitOnChar ',' (joinComma ts).data = ts.map String.data :=
    splitOnChar_joinComma ts hne (fun t htm => (ht t htm).2.2.2.1)
  rw [hsplitJ, List.map_map]
  have hclean : ts.map (cleanTicker ∘ String.data) = ts := by
    have hcongr : ts.map (cleanTicker ∘ String.data) = ts.map id := by
      apply List.map_congr_left
      intro t htm
      show cleanTicker t.data = t
      unfold cleanTicker
      rw [show (⟨t.data⟩ : String) = t from rfl, (ht t htm).2.1, (ht t htm).2.2.1]
    rw [hcongr, List.map_id]
  rw [hclean]
  rw [dedupTickers_id ts [] hnd (fun t htm => ⟨(ht t htm).1, by simp⟩)]
  rw [if_neg hne]
  rw [List.find?_eq_none.mpr (fun t htm => by simp [(ht t htm).2.2.2.2])]

/-- C6 witness: a two-ticker command over the known set `{AAPL, TSLA}` does
round-trip. -/
theorem c6_witness :
    parse_command (serializeCommand ⟨⟨127, 0, 0, 1, 5000⟩, ["AAPL", "TSLA"]⟩)
      ["AAPL", "TSLA"] = .ok ⟨⟨127, 0, 0, 1, 5000⟩, ["AAPL", "TSLA"]⟩ :=
  c6_amended_roundtrip ⟨⟨127, 0, 0, 1, 5000⟩, ["AAPL", "TSLA"]⟩ ["AAPL", "TSLA"]
    (by decide) (by decide) (by decide) (by decide)

end QuoteService
